import Mathlib

/-!
Shallow embedding of the MCTS engine of `src/mcts.rs` and the game/policy
contracts of `src/game.rs`.

Modelling conventions:
* `f32` values are modelled by an abstract linear ordered field `F`
  (instantiated with `ℚ` in concrete witnesses); the float square root is an
  abstract function `sqrtF : F → F` and `f32::MAX` an abstract constant
  `fMAX : F`.
* The `ego_tree` arena is modelled by a rose tree `MTree`; a `NodeId` is
  modelled by the path (list of child indices) from the root to the node.
* `rand::thread_rng` is modelled by an oracle: each tie-break consumes one
  natural number `r` and picks index `r % k` among the `k` maximizers, which
  is uniform when `r` is drawn uniformly from a large range.
* The unbounded rollout loop of `simulate` is modelled with explicit fuel;
  running out of fuel is `Option.none` at the outermost layer.
* Rust panics (`unwrap` on `None`, out-of-bounds indexing) inside statistics
  extraction are modelled by `Option.none` results of `get_tree_stats`.
-/

namespace AlphaScuffed

/-- Mirrors `enum Players` of `src/game.rs`. -/
inductive Players where
  | Player
  | Opponent
deriving DecidableEq, Repr

/-- Mirrors `Players::swap` of `src/game.rs`. -/
def Players.swap : Players → Players
  | .Player => .Opponent
  | .Opponent => .Player

/-- Mirrors `enum GameResult` of `src/game.rs`. -/
inductive GameResult where
  | Win
  | Loss
  | Tie
deriving DecidableEq, Repr

section Model

variable (F : Type) [LinearOrderedField F]

/-- The `Game` trait of `src/game.rs`, as a record of the capabilities the
engine uses.  `available_moves` returns the `[bool; N]` array as a list (its
length being `N`); `get_game_state_slice` returns the `[f32; I]` array as a
list of `F`. -/
structure GameI (σ : Type) where
  winning_player : σ → Option Players
  available_moves : σ → List Bool
  perform_move : σ → ℕ → σ
  game_ended : σ → Bool
  current_player : σ → Players
  get_game_state_slice : σ → List F

/-- The `Policy` trait of `src/game.rs`; the engine only uses `select_move`,
whose `anyhow::Result` is modelled by `Except ε`. -/
structure PolicyI (σ ε : Type) where
  select_move : σ → Except ε ℕ

variable {F}

/-- Mirrors `GameResult::points` of `src/game.rs` (f32 values as `F`). -/
def GameResult.points : GameResult → F
  | .Win => 1
  | .Loss => -1
  | .Tie => 0

/-- Mirrors `move_indices` of `src/game.rs`: enumerate the availability
array, keep the `true` entries, return their indices. -/
def move_indices {σ : Type} (G : GameI F σ) (g : σ) : List ℕ :=
  (((G.available_moves g).enum).filter (fun x => x.2)).map (fun x => x.1)

/-- Mirrors `struct MCTSData` of `src/mcts.rs`. -/
structure MCTSData (σ : Type) (F : Type) where
  game : σ
  visits : ℕ
  score : F
  source_move : Option ℕ
deriving Repr

/-- Mirrors `MCTSData::new` of `src/mcts.rs`. -/
def MCTSData.new {σ : Type} (g : σ) : MCTSData σ F :=
  { game := g, visits := 0, score := 0, source_move := none }

/-- The `ego_tree::Tree` arena restricted to what the engine stores in it: a
rose tree of `MCTSData` values.  A `NodeId` is modelled by the path of child
indices leading from the root to the node. -/
inductive MTree (σ : Type) (F : Type) where
  | node (data : MCTSData σ F) (children : List (MTree σ F))

/-- Data stored at the root of a subtree. -/
def MTree.data {σ : Type} : MTree σ F → MCTSData σ F
  | .node d _ => d

/-- Children of the root of a subtree. -/
def MTree.children {σ : Type} : MTree σ F → List (MTree σ F)
  | .node _ cs => cs

/-- Node lookup by path, mirroring `tree.get(node_id)` (`None` when the
path denotes no node). -/
def MTree.getPath? {σ : Type} : MTree σ F → List ℕ → Option (MCTSData σ F)
  | .node d _, [] => some d
  | .node _ cs, i :: p =>
    match cs.get? i with
    | some c => c.getPath? p
    | none => none

/-- Total variant of path lookup returning the subtree; used where the path
is known to be valid (`tree.get(..).unwrap()` in the source). -/
def MTree.follow {σ : Type} : MTree σ F → List ℕ → MTree σ F
  | t, [] => t
  | .node d cs, i :: p => (cs.getD i (.node d [])).follow p

end Model

section Engine

variable {F : Type} [LinearOrderedField F] {σ ε : Type}

/-- The `DECAY` constant of `backprop` in `src/mcts.rs` (0.9). -/
def DECAY : F := 9 / 10

/-- The per-node update performed by one `backprop` call in `src/mcts.rs`:
`visits += 1; score += pts`. -/
def MCTSData.touch (d : MCTSData σ F) (pts : F) : MCTSData σ F :=
  { d with visits := d.visits + 1, score := d.score + pts }

/-- The `EXPLORATION_WEIGHT` constant of `ucb` in `src/mcts.rs` (10.0). -/
def EXPLORATION_WEIGHT : F := 10

/-- The `SIMULATIONS` constant of `mcts` in `src/mcts.rs`. -/
def SIMULATIONS : ℕ := 1000

/-- Mirrors `ucb` of `src/mcts.rs`.  The source reads the parent's visit
count through `node.parent().unwrap()`; here it is passed explicitly. -/
def ucb (sqrtF : F → F) (fMAX : F) (parent_visits : ℕ) (n : MCTSData σ F) : F :=
  if n.visits = 0 then fMAX
  else
    let exploration_score :=
      sqrtF (sqrtF (parent_visits : F) / ((n.visits : F) + 1)) * EXPLORATION_WEIGHT
    let exploitation_score := n.score / (n.visits : F)
    exploitation_score + exploration_score

/-- Maximum of a list of scores (0 for the empty list, which never occurs at
call sites): models the maximum underlying `max_set_by_key`. -/
def listMax : List F → F
  | [] => 0
  | x :: xs => xs.foldl max x

/-- The index set built by `max_set_by_key` in `select_child` of
`src/mcts.rs`: the indices of all entries attaining the maximal score, in
encounter order. -/
def max_set_ids (scored : List F) : List ℕ :=
  ((scored.enum).filter (fun x => x.2 = listMax scored)).map (fun x => x.1)

/-- Mirrors `select_child` of `src/mcts.rs`: score every child with `ucb`,
collect the indices attaining the maximal score (`max_set_by_key`, which
preserves encounter order), then pick one of the `k` maximizers uniformly at
random (`choose`), modelled by index `r % k` for an oracle-supplied `r`. -/
def select_child (sqrtF : F → F) (fMAX : F) (parent_visits : ℕ) (r : ℕ)
    (cs : List (MTree σ F)) : ℕ :=
  let max_ids := max_set_ids (cs.map (fun c => ucb sqrtF fMAX parent_visits c.data))
  max_ids.getD (r % max_ids.length) 0

/-- Helper: `getD` either returns a member of the list or the fallback. -/
theorem getD_mem_or_eq {α : Type} :
    ∀ (l : List α) (i : ℕ) (d : α), l.getD i d ∈ l ∨ l.getD i d = d := by
  intro l
  induction l with
  | nil => intro i d; right; cases i <;> rfl
  | cons x xs ih =>
    intro i d
    cases i with
    | zero => left; exact List.mem_cons_self x xs
    | succ n =>
      rcases ih n d with h | h
      · left; exact List.mem_cons_of_mem x h
      · right; exact h

/-- Helper for the termination of `select_leaf`: descending into a child
(or the fallback first child) shrinks the tree. -/
theorem sizeOf_getD_lt {σ : Type} {F : Type} [LinearOrderedField F]
    (d : MCTSData σ F) (c : MTree σ F) (cs : List (MTree σ F)) (i : ℕ) :
    sizeOf ((c :: cs).getD i c) < sizeOf (MTree.node d (c :: cs)) := by
  have h1 : (c :: cs).getD i c ∈ c :: cs := by
    rcases getD_mem_or_eq (c :: cs) i c with h | h
    · exact h
    · rw [h]; exact List.mem_cons_self c cs
  have h2 := List.sizeOf_lt_of_mem h1
  have h3 : sizeOf (MTree.node d (c :: cs)) = 1 + sizeOf d + sizeOf (c :: cs) := by
    simp
  omega

/-- Mirrors `select_leaf` of `src/mcts.rs`: starting at the given node,
descend through `select_child` while the node has children; returns the path
(list of child indices) to the reached leaf.  The oracle list `rs` supplies
one tie-break number per level. -/
def select_leaf (sqrtF : F → F) (fMAX : F) : MTree σ F → List ℕ → List ℕ
  | .node _ [], _ => []
  | .node d (c :: cs), rs =>
    select_child sqrtF fMAX d.visits (rs.headD 0) (c :: cs) ::
      select_leaf sqrtF fMAX
        ((c :: cs).getD (select_child sqrtF fMAX d.visits (rs.headD 0) (c :: cs)) c)
        rs.tail
termination_by t _ => sizeOf t
decreasing_by
  exact sizeOf_getD_lt d c cs _

/-- Mirrors `backprop` of `src/mcts.rs`, reindexed from the source's
leaf-to-root recursion to a root-to-leaf traversal of the path: the source
adds `points` at the leaf and multiplies by `DECAY` once per step towards
the root, so the node with `k` path entries remaining below it receives
`points * DECAY ^ k`; every node on the path gets `visits + 1`. -/
def backprop : List ℕ → MTree σ F → F → MTree σ F
  | [], .node d cs, points => .node (d.touch points) cs
  | i :: p, .node d cs, points =>
    .node (d.touch (points * DECAY ^ (p.length + 1)))
      (cs.set i (backprop p (cs.getD i (.node d [])) points))

/-- The child node built by one iteration of the `expand` loop in
`src/mcts.rs`: the position cloned with the move applied, zero visits, zero
score, tagged with the originating move index. -/
def fresh_child (G : GameI F σ) (g : σ) (mv : ℕ) : MTree σ F :=
  .node { game := G.perform_move g mv, visits := 0, score := 0, source_move := some mv } []

/-- Mirrors `expand` of `src/mcts.rs`: for every legal move of the node's
position, clone the position, apply the move, and append a child tagged with
the move index, with zero visits and zero score. -/
def expand (G : GameI F σ) : MTree σ F → MTree σ F
  | .node d cs => .node d (cs ++ (move_indices G d.game).map (fresh_child G d.game))

/-- Applies `expand` to the node at the given path. -/
def expand_at (G : GameI F σ) : List ℕ → MTree σ F → MTree σ F
  | [], t => expand G t
  | i :: p, .node d cs => .node d (cs.set i (expand_at G p (cs.getD i (.node d []))))

/-- The winner classification at the end of `simulate` in `src/mcts.rs`:
`Win` if the winner is the simulated player, `Loss` for any other winner,
`Tie` when there is no winner. -/
def classify (winner : Option Players) (simulated_player : Players) : GameResult :=
  match winner with
  | some player => if player = simulated_player then .Win else .Loss
  | none => .Tie

/-- Mirrors `simulate` of `src/mcts.rs`: repeatedly ask the policy for a
move and apply it until `game_ended()`, then classify the winner relative to
`simulated_player`.  The source's unbounded loop is modelled with fuel;
`none` means the fuel ran out before the game ended. -/
def simulate (G : GameI F σ) (P : PolicyI σ ε) (simulated_player : Players) :
    ℕ → σ → Option (Except ε GameResult)
  | 0, g =>
    if G.game_ended g then some (.ok (classify (G.winning_player g) simulated_player))
    else none
  | fuel + 1, g =>
    if G.game_ended g then some (.ok (classify (G.winning_player g) simulated_player))
    else
      match P.select_move g with
      | .error e => some (.error e)
      | .ok mv => simulate G P simulated_player fuel (G.perform_move g mv)

/-- The terminal-leaf scoring of the `mcts` loop in `src/mcts.rs` (lines
111–115): +1 for `Players::Player`, −1 for `Players::Opponent`, 0 for no
winner. -/
def terminal_points (result : Option Players) : F :=
  match result with
  | some .Player => 1
  | some .Opponent => -1
  | none => 0

/-- One iteration of the `mcts` simulation loop in `src/mcts.rs`: select a
leaf; if its position has ended, backpropagate the terminal value; otherwise
run a rollout with `simulate` (relative to the fixed `Players::Player`),
expand the leaf, and backpropagate the rollout's point value.  `none` means
the rollout's fuel ran out. -/
def mcts_step (sqrtF : F → F) (fMAX : F) (G : GameI F σ) (P : PolicyI σ ε)
    (fuel : ℕ) (t : MTree σ F) (rs : List ℕ) : Option (Except ε (MTree σ F)) :=
  let p := select_leaf sqrtF fMAX t rs
  let g := (t.follow p).data.game
  if G.game_ended g then
    some (.ok (backprop p t (terminal_points (G.winning_player g))))
  else
    match simulate G P .Player fuel g with
    | none => none
    | some (.error e) => some (.error e)
    | some (.ok result) =>
      some (.ok (backprop p (expand_at G p t) (GameResult.points result)))

/-- The `mcts` simulation loop of `src/mcts.rs`, instrumented to also return
the list of selected leaf paths (one per simulation, in order); `k` indexes
the oracle so each iteration gets fresh tie-break randomness. -/
def run_sims (sqrtF : F → F) (fMAX : F) (G : GameI F σ) (P : PolicyI σ ε)
    (fuel : ℕ) (oracle : ℕ → List ℕ) :
    ℕ → ℕ → MTree σ F → Option (Except ε (MTree σ F × List (List ℕ)))
  | 0, _, t => some (.ok (t, []))
  | n + 1, k, t =>
    match mcts_step sqrtF fMAX G P fuel t (oracle k) with
    | none => none
    | some (.error e) => some (.error e)
    | some (.ok t1) =>
      match run_sims sqrtF fMAX G P fuel oracle n (k + 1) t1 with
      | none => none
      | some (.error e) => some (.error e)
      | some (.ok (tf, log)) =>
        some (.ok (tf, select_leaf sqrtF fMAX t (oracle k) :: log))

/-- Mirrors `struct GameStats` of `src/mcts.rs` (fixed-size float arrays as
lists). -/
structure GameStats (F : Type) where
  best_move_index : ℕ
  game_state : List F
  node_visits : List F
  score : F

/-- One comparison step of Rust's `Iterator::max_by_key` on visit counts:
keeps the maximum seen so far, replacing it on ties (so the last maximal
element wins). -/
def max_by_key_step (acc : Option (MCTSData σ F)) (d : MCTSData σ F) :
    Option (MCTSData σ F) :=
  match acc with
  | none => some d
  | some m => if m.visits ≤ d.visits then some d else some m

/-- Rust's `Iterator::max_by_key` on visit counts: returns the last element
attaining the maximal `visits`, `none` on an empty list. -/
def max_by_key_visits : List (MCTSData σ F) → Option (MCTSData σ F) :=
  List.foldl max_by_key_step none

/-- One step of the visit-vector fill loop of `get_tree_stats`:
`visit_stats[data.source_move.unwrap()] = data.visits as f32`.  `none`
models the panics (`unwrap` of a `None` source move, out-of-bounds write). -/
def set_visit (acc : Option (List F)) (c : MCTSData σ F) : Option (List F) :=
  match acc, c.source_move with
  | some stats, some i =>
    if i < stats.length then some (stats.set i (c.visits : F)) else none
  | _, _ => none

/-- Mirrors `get_tree_stats` of `src/mcts.rs`.  `N` is the move-count const
generic.  A `none` result models a panic: either the `max_by_key(..).unwrap()`
on an empty child list, or a `source_move.unwrap()` on `None`. -/
def get_tree_stats (N : ℕ) (G : GameI F σ) (t : MTree σ F) : Option (GameStats F) :=
  let child_datas := t.children.map MTree.data
  match child_datas.foldl set_visit (some (List.replicate N (0 : F))) with
  | none => none
  | some visit_stats =>
    match max_by_key_visits child_datas with
    | none => none
    | some best =>
      match best.source_move with
      | none => none
      | some best_move_index =>
        some { best_move_index := best_move_index,
               node_visits := visit_stats,
               game_state := G.get_game_state_slice t.data.game,
               score := t.data.score }

/-- Mirrors `mcts` of `src/mcts.rs`: build a fresh tree around the root
position, run `SIMULATIONS` simulations, and extract statistics.  Outermost
`none` is rollout-fuel exhaustion; `Except.error` is a propagated policy
error; the inner `none` of the payload models a panic inside
`get_tree_stats`. -/
def mcts (sqrtF : F → F) (fMAX : F) (N : ℕ) (G : GameI F σ) (P : PolicyI σ ε)
    (fuel : ℕ) (oracle : ℕ → List ℕ) (root_game : σ) :
    Option (Except ε (Option (GameStats F))) :=
  match run_sims sqrtF fMAX G P fuel oracle SIMULATIONS 0
      (.node (MCTSData.new root_game) []) with
  | none => none
  | some (.error e) => some (.error e)
  | some (.ok (t, _)) => some (.ok (get_tree_stats N G t))

end Engine

section Toolkit

variable {F : Type} [LinearOrderedField F] {σ ε : Type}

/-- Initial accumulator bounds the fold of `max`. -/
theorem le_foldl_max (l : List F) (a : F) : a ≤ l.foldl max a := by
  induction l generalizing a with
  | nil => exact le_refl a
  | cons x xs ih => exact le_trans (le_max_left a x) (ih (max a x))

/-- Every list member bounds the fold of `max` from below. -/
theorem mem_le_foldl_max (l : List F) (a x : F) (hx : x ∈ l) : x ≤ l.foldl max a := by
  induction l generalizing a with
  | nil => exact absurd hx (List.not_mem_nil x)
  | cons y ys ih =>
    rcases List.mem_cons.mp hx with h | h
    · subst h
      exact le_trans (le_max_right a x) (le_foldl_max ys (max a x))
    · exact ih (max a y) h

/-- The fold of `max` is the accumulator or a member of the list. -/
theorem foldl_max_mem (l : List F) (a : F) : l.foldl max a = a ∨ l.foldl max a ∈ l := by
  induction l generalizing a with
  | nil => exact Or.inl rfl
  | cons x xs ih =>
    rcases ih (max a x) with h | h
    · rcases max_choice a x with hm | hm
      · exact Or.inl (by rw [List.foldl_cons, h, hm])
      · exact Or.inr (by rw [List.foldl_cons, h, hm]; exact List.mem_cons_self x xs)
    · exact Or.inr (List.mem_cons_of_mem x h)

/-- `listMax` bounds every member of the list. -/
theorem le_listMax {l : List F} {x : F} (hx : x ∈ l) : x ≤ listMax l := by
  cases l with
  | nil => exact absurd hx (List.not_mem_nil x)
  | cons y ys =>
    rcases List.mem_cons.mp hx with h | h
    · subst h; exact le_foldl_max ys x
    · exact mem_le_foldl_max ys y x h

/-- `listMax` of a non-empty list is attained by a member. -/
theorem listMax_mem {l : List F} (h : l ≠ []) : listMax l ∈ l := by
  cases l with
  | nil => exact absurd rfl h
  | cons y ys =>
    rcases foldl_max_mem ys y with h1 | h1
    · rw [listMax, h1]; exact List.mem_cons_self y ys
    · exact List.mem_cons_of_mem y (by rw [listMax]; exact h1)

/-- Unfolding `getPath?` one step along an existing child. -/
theorem getPath?_cons_some {d : MCTSData σ F} {cs : List (MTree σ F)} {j : ℕ}
    (q : List ℕ) {c : MTree σ F} (hc : cs.get? j = some c) :
    (MTree.node d cs).getPath? (j :: q) = c.getPath? q := by
  rw [MTree.getPath?, hc]

/-- Unfolding `getPath?` one step along a missing child. -/
theorem getPath?_cons_none {d : MCTSData σ F} {cs : List (MTree σ F)} {j : ℕ}
    (q : List ℕ) (hc : cs.get? j = none) :
    (MTree.node d cs).getPath? (j :: q) = none := by
  rw [MTree.getPath?, hc]

/-- A successful indexed lookup implies the index is in bounds. -/
theorem get?_some_lt {α : Type} {l : List α} {j : ℕ} {c : α} (hc : l.get? j = some c) :
    j < l.length := by
  by_contra h
  rw [List.get?_eq_none.mpr (le_of_not_lt h)] at hc
  exact absurd hc (by simp)

/-- `getD` agrees with a successful `get?`. -/
theorem getD_of_get?_some {α : Type} {l : List α} {j : ℕ} {c : α} (d : α)
    (hc : l.get? j = some c) : l.getD j d = c := by
  rw [List.getD_eq_getD_get?, hc]; rfl

/-- Backpropagation along `q ++ r` updates the node at path `q` by one visit
and `points * DECAY ^ |r|` added to the score (the node is `|r|` levels above
the leaf). -/
theorem getPath?_backprop_on_path (v : F) :
    ∀ (q r : List ℕ) (t : MTree σ F) (d : MCTSData σ F),
      t.getPath? q = some d →
      (backprop (q ++ r) t v).getPath? q = some (d.touch (v * DECAY ^ r.length)) := by
  intro q
  induction q with
  | nil =>
    intro r t d hd
    cases t with
    | node d0 cs =>
      have hd0 : d0 = d := by simpa [MTree.getPath?] using hd
      subst hd0
      cases r with
      | nil => simp [backprop, MTree.getPath?, MCTSData.touch]
      | cons i r' => simp [backprop, MTree.getPath?, MCTSData.touch]
  | cons j q' ih =>
    intro r t d hd
    cases t with
    | node d0 cs =>
      cases hc : cs.get? j with
      | none => rw [getPath?_cons_none q' hc] at hd; exact absurd hd (by simp)
      | some c =>
        rw [getPath?_cons_some q' hc] at hd
        have hj : j < cs.length := get?_some_lt hc
        have hset : (cs.set j (backprop (q' ++ r) (cs.getD j (MTree.node d0 [])) v)).get? j
            = some (backprop (q' ++ r) c v) := by
          rw [List.get?_set_eq_of_lt _ hj, getD_of_get?_some _ hc]
        rw [List.cons_append, backprop, getPath?_cons_some q' hset]
        exact ih r c d hd

/-- Backpropagation along `p` leaves the data of every node whose path is
not a prefix of `p` unchanged. -/
theorem getPath?_backprop_offpath (v : F) :
    ∀ (p q : List ℕ) (t : MTree σ F), ¬ q <+: p →
      (backprop p t v).getPath? q = t.getPath? q := by
  intro p
  induction p with
  | nil =>
    intro q t hq
    cases t with
    | node d cs =>
      cases q with
      | nil => exact absurd List.nil_prefix hq
      | cons j q' =>
        rw [backprop]
        cases hc : cs.get? j with
        | none => rw [getPath?_cons_none q' hc, getPath?_cons_none q' hc]
        | some c => rw [getPath?_cons_some q' hc, getPath?_cons_some q' hc]
  | cons i p' ih =>
    intro q t hq
    cases t with
    | node d cs =>
      cases q with
      | nil => exact absurd List.nil_prefix hq
      | cons j q' =>
        rw [backprop]
        by_cases hij : j = i
        · subst hij
          have hq' : ¬ q' <+: p' := fun h => hq (List.cons_prefix_cons.mpr ⟨rfl, h⟩)
          cases hc : cs.get? j with
          | none =>
            have hlen : cs.length ≤ j := List.get?_eq_none.mp hc
            have hset : (cs.set j (backprop p' (cs.getD j (MTree.node d [])) v)).get? j
                = none := by
              rw [List.get?_eq_none, List.length_set]
              exact hlen
            rw [getPath?_cons_none q' hset, getPath?_cons_none q' hc]
          | some c =>
            have hj : j < cs.length := get?_some_lt hc
            have hset : (cs.set j (backprop p' (cs.getD j (MTree.node d [])) v)).get? j
                = some (backprop p' c v) := by
              rw [List.get?_set_eq_of_lt _ hj, getD_of_get?_some _ hc]
            rw [getPath?_cons_some q' hset, getPath?_cons_some q' hc]
            exact ih q' c hq'
        · have hset : (cs.set i (backprop p' (cs.getD i (MTree.node d [])) v)).get? j
              = cs.get? j := List.get?_set_ne _ _ (fun h => hij h.symm)
          cases hc : cs.get? j with
          | none => rw [getPath?_cons_none q' (hset.trans hc), getPath?_cons_none q' hc]
          | some c => rw [getPath?_cons_some q' (hset.trans hc), getPath?_cons_some q' hc]

/-- Expansion at path `p` does not change the data stored at any
already-existing node. -/
theorem getPath?_expand_at_of_some (G : GameI F σ) :
    ∀ (p q : List ℕ) (t : MTree σ F) (d : MCTSData σ F),
      t.getPath? q = some d → (expand_at G p t).getPath? q = some d := by
  intro p
  induction p with
  | nil =>
    intro q t d hd
    cases t with
    | node d0 cs =>
      cases q with
      | nil => exact hd
      | cons j q' =>
        cases hc : cs.get? j with
        | none => rw [getPath?_cons_none q' hc] at hd; exact absurd hd (by simp)
        | some c =>
          rw [getPath?_cons_some q' hc] at hd
          have hj : j < cs.length := get?_some_lt hc
          have happ : (cs ++ (move_indices G d0.game).map (fresh_child G d0.game)).get? j
              = some c := by
            rw [List.get?_append hj]; exact hc
          rw [expand_at, expand, getPath?_cons_some q' happ]
          exact hd
  | cons i p' ih =>
    intro q t d hd
    cases t with
    | node d0 cs =>
      cases q with
      | nil => exact hd
      | cons j q' =>
        rw [expand_at]
        by_cases hij : j = i
        · subst hij
          cases hc : cs.get? j with
          | none => rw [getPath?_cons_none q' hc] at hd; exact absurd hd (by simp)
          | some c =>
            rw [getPath?_cons_some q' hc] at hd
            have hj : j < cs.length := get?_some_lt hc
            have hset : (cs.set j (expand_at G p' (cs.getD j (MTree.node d0 [])))).get? j
                = some (expand_at G p' c) := by
              rw [List.get?_set_eq_of_lt _ hj, getD_of_get?_some _ hc]
            rw [getPath?_cons_some q' hset]
            exact ih q' c d hd
        · have hset : (cs.set i (expand_at G p' (cs.getD i (MTree.node d0 [])))).get? j
              = cs.get? j := List.get?_set_ne _ _ (fun h => hij h.symm)
          cases hc : cs.get? j with
          | none => rw [getPath?_cons_none q' hc] at hd; exact absurd hd (by simp)
          | some c =>
            rw [getPath?_cons_some q' hc] at hd
            rw [getPath?_cons_some q' (hset.trans hc)]
            exact hd

/-- Any node of an expanded tree either already existed with the same data,
or is a freshly appended child with zero visits and zero score. -/
theorem getPath?_expand_at_cases (G : GameI F σ) :
    ∀ (p q : List ℕ) (t : MTree σ F) (d : MCTSData σ F),
      (expand_at G p t).getPath? q = some d →
      t.getPath? q = some d ∨ (d.visits = 0 ∧ d.score = 0) := by
  intro p
  induction p with
  | nil =>
    intro q t d hd
    cases t with
    | node d0 cs =>
      cases q with
      | nil => left; exact hd
      | cons j q' =>
        rw [expand_at, expand] at hd
        by_cases hj : j < cs.length
        · left
          have happ : (cs ++ (move_indices G d0.game).map (fresh_child G d0.game)).get? j
              = cs.get? j := List.get?_append hj
          cases hc : cs.get? j with
          | none => rw [getPath?_cons_none q' (happ.trans hc)] at hd; exact absurd hd (by simp)
          | some c =>
            rw [getPath?_cons_some q' (happ.trans hc)] at hd
            rw [getPath?_cons_some q' hc]
            exact hd
        · have happ : (cs ++ (move_indices G d0.game).map (fresh_child G d0.game)).get? j
              = ((move_indices G d0.game).map (fresh_child G d0.game)).get? (j - cs.length) :=
            List.get?_append_right (le_of_not_lt hj)
          cases hc : ((move_indices G d0.game).map (fresh_child G d0.game)).get? (j - cs.length) with
          | none => rw [getPath?_cons_none q' (happ.trans hc)] at hd; exact absurd hd (by simp)
          | some c =>
            rw [getPath?_cons_some q' (happ.trans hc)] at hd
            rcases List.mem_map.mp (List.get?_mem hc) with ⟨mv, _, hmv⟩
            subst hmv
            cases q' with
            | nil =>
              right
              rw [fresh_child] at hd
              injection hd with h
              rw [← h]
              exact ⟨rfl, rfl⟩
            | cons j' q'' =>
              rw [fresh_child,
                getPath?_cons_none q'' (show ([] : List (MTree σ F)).get? j' = none from rfl)] at hd
              exact absurd hd (by simp)
  | cons i p' ih =>
    intro q t d hd
    cases t with
    | node d0 cs =>
      cases q with
      | nil => left; exact hd
      | cons j q' =>
        rw [expand_at] at hd
        by_cases hij : j = i
        · subst hij
          by_cases hj : j < cs.length
          · cases hc : cs.get? j with
            | none => rw [List.get?_eq_none] at hc; omega
            | some c =>
              have hset : (cs.set j (expand_at G p' (cs.getD j (MTree.node d0 [])))).get? j
                  = some (expand_at G p' c) := by
                rw [List.get?_set_eq_of_lt _ hj, getD_of_get?_some _ hc]
              rw [getPath?_cons_some q' hset] at hd
              rcases ih q' c d hd with h | h
              · left; rw [getPath?_cons_some q' hc]; exact h
              · right; exact h
          · rw [List.set_eq_of_length_le (le_of_not_lt hj)] at hd
            left; exact hd
        · have hset : (cs.set i (expand_at G p' (cs.getD i (MTree.node d0 [])))).get? j
              = cs.get? j := List.get?_set_ne _ _ (fun h => hij h.symm)
          cases hc : cs.get? j with
          | none => rw [getPath?_cons_none q' (hset.trans hc)] at hd; exact absurd hd (by simp)
          | some c =>
            rw [getPath?_cons_some q' (hset.trans hc)] at hd
            left
            rw [getPath?_cons_some q' hc]
            exact hd

/-- Membership in the maximizer index set: exactly the indices whose score
is the maximum. -/
theorem mem_max_set_ids {scored : List F} {j : ℕ} :
    j ∈ max_set_ids scored ↔ scored.get? j = some (listMax scored) := by
  constructor
  · intro hj
    rcases List.mem_map.mp hj with ⟨x, hx, hx1⟩
    rcases List.mem_filter.mp hx with ⟨hxe, hxp⟩
    have hx2 : x.2 = listMax scored := by simpa using hxp
    have hget := List.mem_enum_iff_get?.mp hxe
    rw [hx1] at hget
    rw [hget, hx2]
  · intro hj
    apply List.mem_map.mpr
    refine ⟨(j, listMax scored), ?_, rfl⟩
    apply List.mem_filter.mpr
    refine ⟨List.mem_enum_iff_get?.mpr ?_, by simp⟩
    exact hj

/-- `select_child` always returns a member of the maximizer index set when
there is at least one child. -/
theorem select_child_mem (sqrtF : F → F) (fMAX : F) (pv r : ℕ) {cs : List (MTree σ F)}
    (h : cs ≠ []) :
    select_child sqrtF fMAX pv r cs
      ∈ max_set_ids (cs.map (fun c => ucb sqrtF fMAX pv c.data)) := by
  have hsne : cs.map (fun c => ucb sqrtF fMAX pv c.data) ≠ [] := by
    simpa using h
  rcases List.get?_of_mem (listMax_mem hsne) with ⟨n, hn⟩
  have hmem : n ∈ max_set_ids (cs.map (fun c => ucb sqrtF fMAX pv c.data)) :=
    mem_max_set_ids.mpr hn
  have hne : max_set_ids (cs.map (fun c => ucb sqrtF fMAX pv c.data)) ≠ [] :=
    List.ne_nil_of_mem hmem
  have hpos : 0 < (max_set_ids (cs.map (fun c => ucb sqrtF fMAX pv c.data))).length :=
    List.length_pos.mpr hne
  have hlt := Nat.mod_lt r hpos
  rw [select_child, List.getD_eq_get _ _ hlt]
  exact List.get_mem _ _ _

/-- `select_child` returns an index of one of the children when there is at
least one child. -/
theorem select_child_lt {sqrtF : F → F} {fMAX : F} {pv r : ℕ} {cs : List (MTree σ F)}
    (h : cs ≠ []) : select_child sqrtF fMAX pv r cs < cs.length := by
  have hmem := mem_max_set_ids.mp (select_child_mem sqrtF fMAX pv r h)
  have := get?_some_lt hmem
  simpa using this

/-- Unfolding `select_leaf` at a childless node. -/
theorem select_leaf_nil (sqrtF : F → F) (fMAX : F) (d : MCTSData σ F) (rs : List ℕ) :
    select_leaf sqrtF fMAX (MTree.node d []) rs = [] := by
  rw [select_leaf]

/-- Unfolding `select_leaf` at a node with children. -/
theorem select_leaf_cons (sqrtF : F → F) (fMAX : F) (d : MCTSData σ F)
    (c : MTree σ F) (cs : List (MTree σ F)) (rs : List ℕ) :
    select_leaf sqrtF fMAX (MTree.node d (c :: cs)) rs =
      select_child sqrtF fMAX d.visits (rs.headD 0) (c :: cs) ::
        select_leaf sqrtF fMAX
          ((c :: cs).getD (select_child sqrtF fMAX d.visits (rs.headD 0) (c :: cs)) c)
          rs.tail := by
  rw [select_leaf]

/-- The path returned by `select_leaf` is valid, `follow` finds its data,
and the node it reaches has no children (the `while node.has_children` loop
exit condition of the source). -/
theorem select_leaf_spec (sqrtF : F → F) (fMAX : F) :
    ∀ (t : MTree σ F) (rs : List ℕ),
      t.getPath? (select_leaf sqrtF fMAX t rs)
          = some ((t.follow (select_leaf sqrtF fMAX t rs)).data) ∧
        (t.follow (select_leaf sqrtF fMAX t rs)).children = [] := by
  have H : ∀ (n : ℕ) (t : MTree σ F), sizeOf t ≤ n → ∀ rs : List ℕ,
      t.getPath? (select_leaf sqrtF fMAX t rs)
          = some ((t.follow (select_leaf sqrtF fMAX t rs)).data) ∧
        (t.follow (select_leaf sqrtF fMAX t rs)).children = [] := by
    intro n
    induction n with
    | zero =>
      intro t h rs
      cases t with
      | node d cs => simp at h
    | succ n ih =>
      intro t h rs
      cases t with
      | node d cs =>
        cases cs with
        | nil =>
          rw [select_leaf_nil]
          exact ⟨rfl, rfl⟩
        | cons c cs' =>
          rw [select_leaf_cons]
          have hlt : select_child sqrtF fMAX d.visits (rs.headD 0) (c :: cs')
              < (c :: cs').length := select_child_lt (by simp)
          have hget : (c :: cs').get? (select_child sqrtF fMAX d.visits (rs.headD 0) (c :: cs'))
              = some ((c :: cs').getD
                  (select_child sqrtF fMAX d.visits (rs.headD 0) (c :: cs')) c) := by
            rw [List.get?_eq_get hlt, List.getD_eq_get _ _ hlt]
          have hfollow : (MTree.node d (c :: cs')).follow
              (select_child sqrtF fMAX d.visits (rs.headD 0) (c :: cs') ::
                select_leaf sqrtF fMAX
                  ((c :: cs').getD (select_child sqrtF fMAX d.visits (rs.headD 0) (c :: cs')) c)
                  rs.tail)
              = ((c :: cs').getD
                    (select_child sqrtF fMAX d.visits (rs.headD 0) (c :: cs')) c).follow
                  (select_leaf sqrtF fMAX
                    ((c :: cs').getD
                      (select_child sqrtF fMAX d.visits (rs.headD 0) (c :: cs')) c)
                    rs.tail) := by
            rw [MTree.follow, List.getD_eq_get _ _ hlt, List.getD_eq_get _ _ hlt]
          have hsize : sizeOf ((c :: cs').getD
              (select_child sqrtF fMAX d.visits (rs.headD 0) (c :: cs')) c) ≤ n := by
            have := sizeOf_getD_lt d c cs'
              (select_child sqrtF fMAX d.visits (rs.headD 0) (c :: cs'))
            omega
          rcases ih _ hsize rs.tail with ⟨ih1, ih2⟩
          refine ⟨?_, ?_⟩
          · rw [getPath?_cons_some _ hget, hfollow]
            exact ih1
          · rw [hfollow]
            exact ih2
  intro t rs
  exact H (sizeOf t) t (le_refl _) rs

/-- A prefix of a valid path is itself valid. -/
theorem getPath?_append_some :
    ∀ (q r : List ℕ) (t : MTree σ F) (d : MCTSData σ F),
      t.getPath? (q ++ r) = some d → ∃ d', t.getPath? q = some d' := by
  intro q
  induction q with
  | nil =>
    intro r t d _
    cases t with
    | node d0 cs => exact ⟨d0, rfl⟩
  | cons j q' ih =>
    intro r t d hd
    cases t with
    | node d0 cs =>
      rw [List.cons_append, MTree.getPath?] at hd
      rw [MTree.getPath?]
      cases hc : cs.get? j with
      | none => rw [hc] at hd; exact absurd hd (by simp)
      | some c =>
        rw [hc] at hd
        exact ih r c d hd

/-- Visit count stored at a path (0 when the node does not exist). -/
def visitsAt (t : MTree σ F) (q : List ℕ) : ℕ :=
  match t.getPath? q with
  | some d => d.visits
  | none => 0

/-- One backpropagation pass along a valid path adds exactly one visit to
every node on the path and leaves every other node's visit count
unchanged. -/
theorem visitsAt_backprop (v : F) (p : List ℕ) (t : MTree σ F)
    (dleaf : MCTSData σ F) (hvalid : t.getPath? p = some dleaf) (q : List ℕ) :
    visitsAt (backprop p t v) q = visitsAt t q + (if q <+: p then 1 else 0) := by
  by_cases hq : q <+: p
  · obtain ⟨r, hr⟩ := hq
    rcases getPath?_append_some q r t dleaf (by rw [hr]; exact hvalid) with ⟨dq, hdq⟩
    have hon := getPath?_backprop_on_path v q r t dq hdq
    rw [visitsAt, visitsAt, ← hr, hon, hdq]
    simp [MCTSData.touch, List.prefix_append]
  · rw [visitsAt, visitsAt, getPath?_backprop_offpath v p q t hq]
    simp [hq]

/-- Expansion changes no visit count: existing nodes keep their data and
fresh children start at zero visits. -/
theorem visitsAt_expand_at (G : GameI F σ) (p : List ℕ) (t : MTree σ F) (q : List ℕ) :
    visitsAt (expand_at G p t) q = visitsAt t q := by
  cases ht : t.getPath? q with
  | some d0 =>
    rw [visitsAt, visitsAt, getPath?_expand_at_of_some G p q t d0 ht, ht]
  | none =>
    rw [visitsAt, visitsAt, ht]
    cases hte : (expand_at G p t).getPath? q with
    | none => rfl
    | some d =>
      rcases getPath?_expand_at_cases G p q t d hte with h | h
      · rw [h] at ht; exact absurd ht (by simp)
      · simp [h.1]

/-- Case analysis of one simulation step: either the selected leaf is
terminal and the terminal value is backpropagated, or a rollout succeeded
and its point value is backpropagated after expanding the leaf. -/
theorem mcts_step_cases (sqrtF : F → F) (fMAX : F) (G : GameI F σ) (P : PolicyI σ ε)
    (fuel : ℕ) (t t1 : MTree σ F) (rs : List ℕ)
    (hstep : mcts_step sqrtF fMAX G P fuel t rs = some (.ok t1)) :
    (G.game_ended ((t.follow (select_leaf sqrtF fMAX t rs)).data.game) = true ∧
      t1 = backprop (select_leaf sqrtF fMAX t rs) t
        (terminal_points
          (G.winning_player ((t.follow (select_leaf sqrtF fMAX t rs)).data.game)))) ∨
    (G.game_ended ((t.follow (select_leaf sqrtF fMAX t rs)).data.game) = false ∧
      ∃ result : GameResult,
        simulate G P .Player fuel ((t.follow (select_leaf sqrtF fMAX t rs)).data.game)
          = some (.ok result) ∧
        t1 = backprop (select_leaf sqrtF fMAX t rs)
          (expand_at G (select_leaf sqrtF fMAX t rs) t) result.points) := by
  rw [mcts_step] at hstep
  by_cases he : G.game_ended ((t.follow (select_leaf sqrtF fMAX t rs)).data.game)
  · left
    refine ⟨he, ?_⟩
    rw [if_pos he] at hstep
    have := Option.some.inj hstep
    have := Except.ok.inj this
    exact this.symm
  · right
    rw [if_neg he] at hstep
    refine ⟨by simpa using he, ?_⟩
    cases hsim : simulate G P .Player fuel
        ((t.follow (select_leaf sqrtF fMAX t rs)).data.game) with
    | none => rw [hsim] at hstep; exact absurd hstep (by simp)
    | some res =>
      cases res with
      | error e => rw [hsim] at hstep; exact absurd hstep (by simp)
      | ok result =>
        rw [hsim] at hstep
        have := Option.some.inj hstep
        have := Except.ok.inj this
        exact ⟨result, rfl, this.symm⟩

/-- Visit accounting over one simulation step: the nodes on the selected
leaf path gain exactly one visit, all others are unchanged. -/
theorem mcts_step_visits (sqrtF : F → F) (fMAX : F) (G : GameI F σ) (P : PolicyI σ ε)
    (fuel : ℕ) (t t1 : MTree σ F) (rs : List ℕ)
    (hstep : mcts_step sqrtF fMAX G P fuel t rs = some (.ok t1)) (q : List ℕ) :
    visitsAt t1 q = visitsAt t q
      + (if q <+: select_leaf sqrtF fMAX t rs then 1 else 0) := by
  have hvalid := (select_leaf_spec sqrtF fMAX t rs).1
  rcases mcts_step_cases sqrtF fMAX G P fuel t t1 rs hstep with ⟨_, ht1⟩ | ⟨_, result, _, ht1⟩
  · rw [ht1]
    exact visitsAt_backprop _ _ _ _ hvalid q
  · rw [ht1]
    have hvalid2 := getPath?_expand_at_of_some G (select_leaf sqrtF fMAX t rs) _ t _ hvalid
    rw [visitsAt_backprop _ _ _ _ hvalid2 q, visitsAt_expand_at]

/-- Visit accounting over a whole run: every node's visit count grows by
exactly the number of recorded backpropagation passes whose leaf path passes
through it. -/
theorem run_sims_visits (sqrtF : F → F) (fMAX : F) (G : GameI F σ) (P : PolicyI σ ε)
    (fuel : ℕ) (oracle : ℕ → List ℕ) :
    ∀ (n k : ℕ) (t tf : MTree σ F) (log : List (List ℕ)),
      run_sims sqrtF fMAX G P fuel oracle n k t = some (.ok (tf, log)) →
      ∀ q : List ℕ,
        visitsAt tf q = visitsAt t q + log.countP (fun p => decide (q <+: p)) := by
  intro n
  induction n with
  | zero =>
    intro k t tf log hrun q
    rw [run_sims] at hrun
    have h1 := Except.ok.inj (Option.some.inj hrun)
    simp only [Prod.mk.injEq] at h1
    obtain ⟨h2, h3⟩ := h1
    subst h2
    subst h3
    simp
  | succ n ih =>
    intro k t tf log hrun q
    rw [run_sims] at hrun
    split at hrun
    · exact absurd hrun (by simp)
    · exact absurd hrun (by simp)
    · rename_i t1 hstep
      split at hrun
      · exact absurd hrun (by simp)
      · exact absurd hrun (by simp)
      · rename_i pair tf0 log0 hrest
        have h1 := Except.ok.inj (Option.some.inj hrun)
        simp only [Prod.mk.injEq] at h1
        obtain ⟨htf, hlog⟩ := h1
        subst htf
        have hrec := ih (k + 1) t1 tf0 log0 hrest q
        have hone := mcts_step_visits sqrtF fMAX G P fuel t t1 (oracle k) hstep q
        rw [← hlog, List.countP_cons, hrec, hone]
        by_cases hq : q <+: select_leaf sqrtF fMAX t (oracle k) <;> simp [hq] <;> omega

/-- The run log records exactly one backpropagation pass per simulation. -/
theorem run_sims_log_length (sqrtF : F → F) (fMAX : F) (G : GameI F σ) (P : PolicyI σ ε)
    (fuel : ℕ) (oracle : ℕ → List ℕ) :
    ∀ (n k : ℕ) (t tf : MTree σ F) (log : List (List ℕ)),
      run_sims sqrtF fMAX G P fuel oracle n k t = some (.ok (tf, log)) →
      log.length = n := by
  intro n
  induction n with
  | zero =>
    intro k t tf log hrun
    rw [run_sims] at hrun
    have h1 := Except.ok.inj (Option.some.inj hrun)
    simp only [Prod.mk.injEq] at h1
    rw [← h1.2]
    rfl
  | succ n ih =>
    intro k t tf log hrun
    rw [run_sims] at hrun
    split at hrun
    · exact absurd hrun (by simp)
    · exact absurd hrun (by simp)
    · rename_i t1 hstep
      split at hrun
      · exact absurd hrun (by simp)
      · exact absurd hrun (by simp)
      · rename_i pair tf0 log0 hrest
        have h1 := Except.ok.inj (Option.some.inj hrun)
        simp only [Prod.mk.injEq] at h1
        rw [← h1.2]
        simp [ih (k + 1) t1 tf0 log0 hrest]

/-- A step error can only originate from the rollout: the selected leaf was
not terminal and `simulate` returned exactly that error. -/
theorem mcts_step_error (sqrtF : F → F) (fMAX : F) (G : GameI F σ) (P : PolicyI σ ε)
    (fuel : ℕ) (t : MTree σ F) (rs : List ℕ) (e : ε)
    (hstep : mcts_step sqrtF fMAX G P fuel t rs = some (.error e)) :
    G.game_ended ((t.follow (select_leaf sqrtF fMAX t rs)).data.game) = false ∧
      simulate G P .Player fuel ((t.follow (select_leaf sqrtF fMAX t rs)).data.game)
        = some (.error e) := by
  rw [mcts_step] at hstep
  by_cases he : G.game_ended ((t.follow (select_leaf sqrtF fMAX t rs)).data.game)
  · rw [if_pos he] at hstep
    exact absurd hstep (by simp)
  · rw [if_neg he] at hstep
    refine ⟨by simpa using he, ?_⟩
    cases hsim : simulate G P .Player fuel
        ((t.follow (select_leaf sqrtF fMAX t rs)).data.game) with
    | none => rw [hsim] at hstep; exact absurd hstep (by simp)
    | some res =>
      cases res with
      | error e' =>
        rw [hsim] at hstep
        have he' := Except.error.inj (Option.some.inj hstep)
        rw [he']
      | ok result => rw [hsim] at hstep; exact absurd hstep (by simp)

/-- If the rollout from a non-terminal selected leaf fails, the step returns
exactly that error. -/
theorem mcts_step_error_of_simulate (sqrtF : F → F) (fMAX : F) (G : GameI F σ)
    (P : PolicyI σ ε) (fuel : ℕ) (t : MTree σ F) (rs : List ℕ) (e : ε)
    (he : G.game_ended ((t.follow (select_leaf sqrtF fMAX t rs)).data.game) = false)
    (hsim : simulate G P .Player fuel ((t.follow (select_leaf sqrtF fMAX t rs)).data.game)
      = some (.error e)) :
    mcts_step sqrtF fMAX G P fuel t rs = some (.error e) := by
  rw [mcts_step, if_neg (by simp [he]), hsim]

/-- A failing step fails the whole remaining loop with the same error. -/
theorem run_sims_error_of_step (sqrtF : F → F) (fMAX : F) (G : GameI F σ) (P : PolicyI σ ε)
    (fuel : ℕ) (oracle : ℕ → List ℕ) (n k : ℕ) (t : MTree σ F) (e : ε)
    (hstep : mcts_step sqrtF fMAX G P fuel t (oracle k) = some (.error e)) :
    run_sims sqrtF fMAX G P fuel oracle (n + 1) k t = some (.error e) := by
  rw [run_sims]
  simp only [hstep]

/-- An error from the rest of the loop passes through a successful step
unchanged. -/
theorem run_sims_error_of_rest (sqrtF : F → F) (fMAX : F) (G : GameI F σ) (P : PolicyI σ ε)
    (fuel : ℕ) (oracle : ℕ → List ℕ) (n k : ℕ) (t t1 : MTree σ F) (e : ε)
    (hstep : mcts_step sqrtF fMAX G P fuel t (oracle k) = some (.ok t1))
    (hrest : run_sims sqrtF fMAX G P fuel oracle n (k + 1) t1 = some (.error e)) :
    run_sims sqrtF fMAX G P fuel oracle (n + 1) k t = some (.error e) := by
  rw [run_sims]
  simp only [hstep, hrest]

/-- A failed run makes `mcts` return exactly that error, with no
statistics. -/
theorem mcts_error_of_run (sqrtF : F → F) (fMAX : F) (N : ℕ) (G : GameI F σ)
    (P : PolicyI σ ε) (fuel : ℕ) (oracle : ℕ → List ℕ) (root_game : σ) (e : ε)
    (hrun : run_sims sqrtF fMAX G P fuel oracle SIMULATIONS 0
        (.node (MCTSData.new root_game) []) = some (.error e)) :
    mcts sqrtF fMAX N G P fuel oracle root_game = some (.error e) := by
  rw [mcts]
  simp only [hrun]

/-- One step on a childless node with a terminal position: the terminal
value is backpropagated into that node and nothing is expanded. -/
theorem mcts_step_ended_nil (sqrtF : F → F) (fMAX : F) (G : GameI F σ) (P : PolicyI σ ε)
    (fuel : ℕ) (d : MCTSData σ F) (rs : List ℕ)
    (hend : G.game_ended d.game = true) :
    mcts_step sqrtF fMAX G P fuel (.node d []) rs
      = some (.ok (.node (d.touch (terminal_points (G.winning_player d.game))) [])) := by
  simp only [mcts_step, select_leaf_nil, MTree.follow, MTree.data, hend, if_true]
  rfl

/-- Closed form of a run started from a childless node with a terminal
position: every simulation selects that node, takes the terminal branch and
backpropagates the same terminal value; the node never gains children. -/
theorem run_sims_ended_nil (sqrtF : F → F) (fMAX : F) (G : GameI F σ) (P : PolicyI σ ε)
    (fuel : ℕ) (oracle : ℕ → List ℕ) :
    ∀ (n k : ℕ) (d : MCTSData σ F), G.game_ended d.game = true →
      run_sims sqrtF fMAX G P fuel oracle n k (.node d []) =
        some (.ok (.node
          ⟨d.game, d.visits + n,
            d.score + (n : F) * terminal_points (G.winning_player d.game),
            d.source_move⟩ [],
          List.replicate n [])) := by
  intro n
  induction n with
  | zero =>
    intro k d _
    rw [run_sims]
    norm_num
  | succ n ih =>
    intro k d hend
    have hrest := ih (k + 1) (d.touch (terminal_points (G.winning_player d.game)))
      (by simpa [MCTSData.touch] using hend)
    simp only [MCTSData.touch] at hrest
    rw [run_sims]
    simp only [mcts_step_ended_nil sqrtF fMAX G P fuel d (oracle k) hend, MCTSData.touch]
    simp only [hrest, select_leaf_nil]
    rw [List.replicate_succ]
    simp only [Option.some.injEq, Except.ok.injEq, Prod.mk.injEq, MTree.node.injEq,
      MCTSData.mk.injEq]
    and_intros <;> first | trivial | omega | (push_cast; ring)

/-- The pure playout loop underlying `simulate` in `src/mcts.rs`: apply
policy moves until `game_ended()` and return the final position (fuel-
bounded like `simulate`; the classification of the winner is factored out,
see `simulate_eq_playout_classify`). -/
def playout (G : GameI F σ) (P : PolicyI σ ε) : ℕ → σ → Option (Except ε σ)
  | 0, g => if G.game_ended g then some (.ok g) else none
  | fuel + 1, g =>
    if G.game_ended g then some (.ok g)
    else
      match P.select_move g with
      | .error e => some (.error e)
      | .ok mv => playout G P fuel (G.perform_move g mv)

/-- `simulate` is the playout followed by classifying the final winner
relative to the simulated player. -/
theorem simulate_eq_playout_classify (G : GameI F σ) (P : PolicyI σ ε) (sp : Players) :
    ∀ (fuel : ℕ) (g : σ),
      simulate G P sp fuel g
        = (playout G P fuel g).map
            (Except.map (fun g' => classify (G.winning_player g') sp)) := by
  intro fuel
  induction fuel with
  | zero =>
    intro g
    rw [simulate, playout]
    by_cases he : G.game_ended g
    · rw [if_pos he, if_pos he]; rfl
    · rw [if_neg he, if_neg he]; rfl
  | succ fuel ih =>
    intro g
    rw [simulate, playout]
    by_cases he : G.game_ended g
    · rw [if_pos he, if_pos he]; rfl
    · rw [if_neg he, if_neg he]
      cases hm : P.select_move g with
      | error e => rfl
      | ok mv => exact ih (G.perform_move g mv)

/-- A successful playout always stops at a terminal position. -/
theorem playout_ended (G : GameI F σ) (P : PolicyI σ ε) :
    ∀ (fuel : ℕ) (g g' : σ), playout G P fuel g = some (.ok g') →
      G.game_ended g' = true := by
  intro fuel
  induction fuel with
  | zero =>
    intro g g' h
    rw [playout] at h
    by_cases he : G.game_ended g
    · rw [if_pos he] at h
      have := Except.ok.inj (Option.some.inj h)
      rw [← this]
      exact he
    · rw [if_neg he] at h
      exact absurd h (by simp)
  | succ fuel ih =>
    intro g g' h
    rw [playout] at h
    by_cases he : G.game_ended g
    · rw [if_pos he] at h
      have := Except.ok.inj (Option.some.inj h)
      rw [← this]
      exact he
    · rw [if_neg he] at h
      cases hm : P.select_move g with
      | error e => rw [hm] at h; exact absurd h (by simp)
      | ok mv => rw [hm] at h; exact ih (G.perform_move g mv) g' h

end Toolkit

section ToyGames

/-- A miniature concrete game used for witnesses and counterexamples: the
state is the number of stones left, the single move (index 0) removes one
stone, the game ends at zero stones and the Opponent is then the winner.
The mover alternates with the parity of the remaining stones: with an odd
count the Opponent is to move. -/
def CountGame : GameI ℚ ℕ where
  winning_player := fun g => if g = 0 then some .Opponent else none
  available_moves := fun g => [decide (g ≠ 0)]
  perform_move := fun g _ => g - 1
  game_ended := fun g => decide (g = 0)
  current_player := fun g => if g % 2 = 0 then .Player else .Opponent
  get_game_state_slice := fun g => [(g : ℚ)]

/-- Policy that always proposes move 0. -/
def ZeroPolicy : PolicyI ℕ Unit := ⟨fun _ => .ok 0⟩

/-- Policy whose move selection always fails. -/
def FailPolicy : PolicyI ℕ Unit := ⟨fun _ => .error ()⟩

end ToyGames

section MoveIndices

variable {F : Type} [LinearOrderedField F] {σ : Type}

/-- Every move index produced by `move_indices` denotes a `true` entry of
the availability array. -/
theorem move_indices_sub {G : GameI F σ} {g : σ} {mv : ℕ} (h : mv ∈ move_indices G g) :
    (G.available_moves g).get? mv = some true := by
  rw [move_indices] at h
  rcases List.mem_map.mp h with ⟨x, hx, hx1⟩
  rcases List.mem_filter.mp hx with ⟨hxe, hxp⟩
  have hx2 : x.2 = true := by simpa using hxp
  have hget := List.mem_enum_iff_get?.mp hxe
  rw [hx1] at hget
  rw [hget, hx2]

/-- The move indices are pairwise distinct. -/
theorem move_indices_nodup (G : GameI F σ) (g : σ) : (move_indices G g).Nodup := by
  rw [move_indices]
  have hsub : ((((G.available_moves g).enum).filter (fun x => x.2)).map
      (fun x => x.1)).Sublist (((G.available_moves g).enum).map (fun x => x.1)) :=
    List.Sublist.map _ (List.filter_sublist _)
  have hnd : (((G.available_moves g).enum).map (fun x => x.1)).Nodup :=
    List.nodup_enum_map_fst (G.available_moves g)
  exact hnd.sublist hsub

/-- There are exactly as many move indices as `true` entries in the
availability array. -/
theorem move_indices_length (G : GameI F σ) (g : σ) :
    (move_indices G g).length = (G.available_moves g).countP (fun b => b) := by
  rw [move_indices, List.length_map, ← List.countP_eq_length_filter]
  conv_rhs => rw [← List.enum_map_snd (G.available_moves g)]
  rw [List.countP_map]
  rfl

end MoveIndices

section StatsLemmas

variable {F : Type} [LinearOrderedField F] {σ : Type}

/-- The `max_by_key` fold with a running maximum returns an element at
least as visited as the accumulator and every list element, drawn from the
accumulator or the list. -/
theorem foldl_max_by_step :
    ∀ (l : List (MCTSData σ F)) (m : MCTSData σ F),
      ∃ b, l.foldl max_by_key_step (some m) = some b ∧
        (b = m ∨ b ∈ l) ∧ m.visits ≤ b.visits ∧ ∀ c ∈ l, c.visits ≤ b.visits := by
  intro l
  induction l with
  | nil =>
    intro m
    exact ⟨m, rfl, Or.inl rfl, le_refl _, by simp⟩
  | cons c l ih =>
    intro m
    by_cases hc : m.visits ≤ c.visits
    · rcases ih c with ⟨b, hb, hmem, hle, hall⟩
      refine ⟨b, ?_, ?_, le_trans hc hle, ?_⟩
      · rw [List.foldl_cons]
        have hstep : max_by_key_step (some m) c = some c := by
          rw [max_by_key_step, if_pos hc]
        rw [hstep]
        exact hb
      · rcases hmem with h | h
        · exact Or.inr (h ▸ List.mem_cons_self c l)
        · exact Or.inr (List.mem_cons_of_mem c h)
      · intro x hx
        rcases List.mem_cons.mp hx with h | h
        · exact h ▸ hle
        · exact hall x h
    · rcases ih m with ⟨b, hb, hmem, hle, hall⟩
      refine ⟨b, ?_, ?_, hle, ?_⟩
      · rw [List.foldl_cons]
        have hstep : max_by_key_step (some m) c = some m := by
          rw [max_by_key_step, if_neg hc]
        rw [hstep]
        exact hb
      · rcases hmem with h | h
        · exact Or.inl h
        · exact Or.inr (List.mem_cons_of_mem c h)
      · intro x hx
        rcases List.mem_cons.mp hx with h | h
        · rw [h]
          exact le_trans (le_of_lt (lt_of_not_le hc)) hle
        · exact hall x h

/-- `max_by_key_visits` of a non-empty list returns a member attaining the
maximal visit count. -/
theorem max_by_key_visits_spec (c : MCTSData σ F) (l : List (MCTSData σ F)) :
    ∃ b, max_by_key_visits (c :: l) = some b ∧ b ∈ c :: l ∧
      ∀ x ∈ c :: l, x.visits ≤ b.visits := by
  rcases foldl_max_by_step l c with ⟨b, hb, hmem, hle, hall⟩
  refine ⟨b, ?_, ?_, ?_⟩
  · rw [max_by_key_visits, List.foldl_cons]
    have hstep : max_by_key_step (none : Option (MCTSData σ F)) c = some c := rfl
    rw [hstep]
    exact hb
  · rcases hmem with h | h
    · exact h ▸ List.mem_cons_self c l
    · exact List.mem_cons_of_mem c h
  · intro x hx
    rcases List.mem_cons.mp hx with h | h
    · exact h ▸ hle
    · exact hall x h

/-- The visit-vector fill fold succeeds when every source move is a `some`
index within bounds; indices written by no element are untouched, and with
distinct source moves every element's visit count ends up at its own
index. -/
theorem set_visit_foldl :
    ∀ (l : List (MCTSData σ F)) (acc : List F),
      (∀ c ∈ l, ∃ i, c.source_move = some i ∧ i < acc.length) →
      ∃ res : List F, l.foldl set_visit (some acc) = some res ∧
        res.length = acc.length ∧
        (∀ j : ℕ, (∀ c ∈ l, c.source_move ≠ some j) → res.get? j = acc.get? j) ∧
        ((l.map (fun c => c.source_move)).Nodup →
          ∀ c ∈ l, ∀ i, c.source_move = some i → res.get? i = some ((c.visits : ℕ) : F)) := by
  intro l
  induction l with
  | nil =>
    intro acc _
    exact ⟨acc, rfl, rfl, fun j _ => rfl, fun _ c hc => absurd hc (List.not_mem_nil c)⟩
  | cons c l ih =>
    intro acc hsm
    rcases hsm c (List.mem_cons_self c l) with ⟨i0, hi0, hi0lt⟩
    have hstep : set_visit (some acc) c = some (acc.set i0 ((c.visits : ℕ) : F)) := by
      simp only [set_visit, hi0]
      rw [if_pos hi0lt]
    have hsm' : ∀ x ∈ l, ∃ i, x.source_move = some i ∧
        i < (acc.set i0 ((c.visits : ℕ) : F)).length := by
      intro x hx
      rcases hsm x (List.mem_cons_of_mem c hx) with ⟨i, hi, hilt⟩
      exact ⟨i, hi, by rw [List.length_set]; exact hilt⟩
    rcases ih (acc.set i0 ((c.visits : ℕ) : F)) hsm' with ⟨res, hres, hlen, huntouched, hfinal⟩
    refine ⟨res, ?_, by rw [hlen, List.length_set], ?_, ?_⟩
    · rw [List.foldl_cons, hstep]
      exact hres
    · intro j hj
      have hj1 : ∀ x ∈ l, x.source_move ≠ some j :=
        fun x hx => hj x (List.mem_cons_of_mem c hx)
      have hj0 : i0 ≠ j := by
        intro hcontra
        exact hj c (List.mem_cons_self c l) (hcontra ▸ hi0)
      rw [huntouched j hj1, List.get?_set_ne _ _ hj0]
    · intro hnd x hx i hi
      have hnd' : (l.map (fun c => c.source_move)).Nodup := (List.nodup_cons.mp hnd).2
      have hhead : c.source_move ∉ l.map (fun c => c.source_move) :=
        (List.nodup_cons.mp hnd).1
      rcases List.mem_cons.mp hx with h | h
      · subst h
        rw [hi] at hi0
        have hii : i = i0 := by
          have := Option.some.inj hi0
          omega
        subst hii
        have huntouch : ∀ y ∈ l, y.source_move ≠ some i := by
          intro y hy hcontra
          apply hhead
          rw [hi, ← hcontra]
          exact List.mem_map.mpr ⟨y, hy, rfl⟩
        rw [huntouched i huntouch]
        rw [List.get?_set_eq_of_lt _ (by omega : i < acc.length)]
      · exact hfinal hnd' x h i hi

end StatsLemmas

section Claims

/-- C2: for every node of the search tree, the selection score is the
maximum representable value (`fMAX`, modelling `f32::MAX`) if the node's
visit count is 0; otherwise it is `accumulated_score / visit_count` plus
`EXPLORATION_WEIGHT = 10` times `sqrt (sqrt parent.visit_count /
(visit_count + 1))`. -/
theorem C2_ucb_formula {F : Type} [LinearOrderedField F] {σ : Type}
    (sqrtF : F → F) (fMAX : F) (pv : ℕ) (n : MCTSData σ F) :
    (n.visits = 0 → ucb sqrtF fMAX pv n = fMAX) ∧
    (n.visits ≠ 0 →
      ucb sqrtF fMAX pv n
        = n.score / (n.visits : F)
          + 10 * sqrtF (sqrtF (pv : F) / ((n.visits : F) + 1))) := by
  constructor
  · intro h
    rw [ucb, if_pos h]
  · intro h
    rw [ucb, if_neg h]
    rw [EXPLORATION_WEIGHT]
    ring

/-- Witness for C2: a node with 4 visits and accumulated score 2 under a
parent with 9 visits, with the square root instantiated as the identity on
ℚ, scores 2/4 + 10 * (9 / 5). -/
theorem C2_ucb_formula_witness :
    ucb (id : ℚ → ℚ) 100 9 (⟨0, 4, 2, none⟩ : MCTSData ℕ ℚ) = 37 / 2 := by
  have h := (C2_ucb_formula (id : ℚ → ℚ) 100 9 (⟨0, 4, 2, none⟩ : MCTSData ℕ ℚ)).2
    (by decide)
  rw [h]
  norm_num

/-- C3: backpropagation starting at the leaf at path `p` with value `v` adds
exactly `v * DECAY ^ k` (`DECAY = 9/10`) to the node `k = |p| - |q|` levels
above the leaf (at path `q`, a prefix of `p`), and adds exactly one visit,
for every node on the leaf-to-root path, the root (`q = []`) included. -/
theorem C3_backprop_decay {F : Type} [LinearOrderedField F] {σ : Type}
    (t : MTree σ F) (p q : List ℕ) (v : F) (d : MCTSData σ F)
    (hq : q <+: p) (hd : t.getPath? q = some d) :
    (backprop p t v).getPath? q
      = some ⟨d.game, d.visits + 1,
          d.score + v * ((9 : F) / 10) ^ (p.length - q.length), d.source_move⟩ := by
  obtain ⟨r, hr⟩ := hq
  subst hr
  rw [getPath?_backprop_on_path v q r t d hd]
  simp [MCTSData.touch, DECAY]

/-- Witness for C3: backpropagating value 1 along the one-step path `[0]`
updates the root (one level above the leaf) by `1 * (9/10)^1` and one
visit. -/
theorem C3_backprop_decay_witness :
    (backprop [0] (MTree.node (⟨5, 0, 0, none⟩ : MCTSData ℕ ℚ)
        [MTree.node ⟨4, 0, 0, some 0⟩ []]) 1).getPath? []
      = some ⟨5, 0 + 1, 0 + 1 * ((9 : ℚ) / 10) ^ 1, none⟩ := by
  exact C3_backprop_decay
    (MTree.node (⟨5, 0, 0, none⟩ : MCTSData ℕ ℚ) [MTree.node ⟨4, 0, 0, some 0⟩ []])
    [0] [] 1 ⟨5, 0, 0, none⟩ ⟨[0], rfl⟩ rfl

/-- C4: a successful full search runs `SIMULATIONS = 1000` iterations, each
performing exactly one backpropagation pass that reaches the root, so the
root's visit count ends at exactly 1000. -/
theorem C4_root_visits {F σ ε : Type} [LinearOrderedField F]
    (sqrtF : F → F) (fMAX : F) (G : GameI F σ) (P : PolicyI σ ε)
    (fuel : ℕ) (oracle : ℕ → List ℕ) (root_game : σ)
    (tf : MTree σ F) (log : List (List ℕ))
    (hrun : run_sims sqrtF fMAX G P fuel oracle SIMULATIONS 0
        (.node (MCTSData.new root_game) []) = some (.ok (tf, log))) :
    SIMULATIONS = 1000 ∧ tf.data.visits = 1000 ∧ log.length = 1000 := by
  have hv := run_sims_visits sqrtF fMAX G P fuel oracle SIMULATIONS 0 _ tf log hrun []
  have hlen := run_sims_log_length sqrtF fMAX G P fuel oracle SIMULATIONS 0 _ tf log hrun
  have hall : log.countP (fun p => decide ([] <+: p)) = log.length :=
    List.countP_eq_length.mpr (fun a _ => by simp)
  have hroot : visitsAt tf [] = tf.data.visits := by
    cases tf
    rfl
  have hinit : visitsAt
      (MTree.node (MCTSData.new root_game) ([] : List (MTree σ F))) [] = 0 := rfl
  refine ⟨rfl, ?_, by rw [hlen]; rfl⟩
  rw [hroot, hall, hinit, hlen] at hv
  rw [hv]
  rfl

/-- Witness for C4: running the full 1000 simulations on a `CountGame`
position that is already over succeeds, and the root ends with exactly 1000
visits. -/
theorem C4_root_visits_witness :
    (MTree.node (⟨0, 0 + SIMULATIONS,
        0 + (SIMULATIONS : ℚ) * terminal_points (CountGame.winning_player 0), none⟩
      : MCTSData ℕ ℚ) []).data.visits = 1000 :=
  (C4_root_visits (id : ℚ → ℚ) 100 CountGame ZeroPolicy 5 (fun _ => []) 0 _ _
    (run_sims_ended_nil (id : ℚ → ℚ) 100 CountGame ZeroPolicy 5 (fun _ => [])
      SIMULATIONS 0 (MCTSData.new 0) (by decide))).2.1

/-- C5: expanding a node whose position has `m` legal moves appends exactly
`m` children, one per legal move in enumeration order; the children's source
moves are the distinct members of the legal-move set, and each child wraps
the leaf position with its move applied, with zero visits and zero score. -/
theorem C5_expand {F σ : Type} [LinearOrderedField F] (G : GameI F σ)
    (d : MCTSData σ F) (cs : List (MTree σ F)) :
    (expand G (MTree.node d cs)).children
        = cs ++ (move_indices G d.game).map (fresh_child G d.game) ∧
    (expand G (MTree.node d cs)).children.length
        = cs.length + (G.available_moves d.game).countP (fun b => b) ∧
    (move_indices G d.game).Nodup ∧
    (∀ mv ∈ move_indices G d.game, (G.available_moves d.game).get? mv = some true) ∧
    (∀ mv : ℕ, fresh_child G d.game mv
        = MTree.node ⟨G.perform_move d.game mv, 0, 0, some mv⟩ []) := by
  refine ⟨rfl, ?_, move_indices_nodup G d.game, ?_, fun mv => rfl⟩
  · rw [expand, MTree.children, List.length_append, List.length_map,
      move_indices_length]
  · intro mv hmv
    exact move_indices_sub hmv

/-- Witness for C5: expanding a fresh `CountGame` node with one stone left
yields move 0 as a legal move index. -/
theorem C5_expand_witness :
    (CountGame.available_moves 1).get? 0 = some true := by
  have h := (C5_expand CountGame (MCTSData.new 1) []).2.2.2.1
  exact h 0 (by decide)

/-- C9: for every non-empty child list, `select_child` returns the index of
one of those children (never an index outside them); the returned child
attains the maximal UCB score among its siblings; and every child attaining
the maximum is reachable through the tie-break randomness, which chooses
index `r mod k` among the `k` collected maximizers — uniform when `r` is
uniform. -/
theorem C9_select_child {F σ : Type} [LinearOrderedField F] (sqrtF : F → F) (fMAX : F)
    (pv r : ℕ) (cs : List (MTree σ F)) (h : cs ≠ []) :
    select_child sqrtF fMAX pv r cs < cs.length ∧
    (∀ csel, cs.get? (select_child sqrtF fMAX pv r cs) = some csel →
      ∀ c ∈ cs, ucb sqrtF fMAX pv c.data ≤ ucb sqrtF fMAX pv csel.data) ∧
    (∀ (j : ℕ) (cj : MTree σ F), cs.get? j = some cj →
      (∀ c ∈ cs, ucb sqrtF fMAX pv c.data ≤ ucb sqrtF fMAX pv cj.data) →
      ∃ r' : ℕ, select_child sqrtF fMAX pv r' cs = j) := by
  have hmem := select_child_mem sqrtF fMAX pv r h
  have hsel := mem_max_set_ids.mp hmem
  refine ⟨select_child_lt h, ?_, ?_⟩
  · intro csel hcsel c hc
    have hmap : (cs.map (fun c => ucb sqrtF fMAX pv c.data)).get?
        (select_child sqrtF fMAX pv r cs) = some (ucb sqrtF fMAX pv csel.data) := by
      rw [List.get?_map, hcsel]
      rfl
    have heq : ucb sqrtF fMAX pv csel.data
        = listMax (cs.map (fun c => ucb sqrtF fMAX pv c.data)) :=
      Option.some.inj (hmap.symm.trans hsel)
    rw [heq]
    exact le_listMax (List.mem_map.mpr ⟨c, hc, rfl⟩)
  · intro j cj hj hmax
    have hmem_cj : ucb sqrtF fMAX pv cj.data
        ∈ cs.map (fun c => ucb sqrtF fMAX pv c.data) :=
      List.mem_map.mpr ⟨cj, List.get?_mem hj, rfl⟩
    have hle := le_listMax hmem_cj
    have hge : listMax (cs.map (fun c => ucb sqrtF fMAX pv c.data))
        ≤ ucb sqrtF fMAX pv cj.data := by
      have hlm := listMax_mem (l := cs.map (fun c => ucb sqrtF fMAX pv c.data))
        (by simpa using h)
      rcases List.mem_map.mp hlm with ⟨c, hc, hc1⟩
      rw [← hc1]
      exact hmax c hc
    have heq := le_antisymm hle hge
    have hjm : j ∈ max_set_ids (cs.map (fun c => ucb sqrtF fMAX pv c.data)) := by
      apply mem_max_set_ids.mpr
      rw [List.get?_map, hj]
      simp [heq]
    rcases List.get?_of_mem hjm with ⟨m, hm⟩
    refine ⟨m, ?_⟩
    simp only [select_child]
    have hmlt : m < (max_set_ids (cs.map (fun c => ucb sqrtF fMAX pv c.data))).length :=
      get?_some_lt hm
    rw [Nat.mod_eq_of_lt hmlt]
    exact getD_of_get?_some _ hm

/-- Witness for C9: with a single child the selected index is 0 (within
bounds of the singleton list). -/
theorem C9_select_child_witness :
    select_child (id : ℚ → ℚ) 100 0 0
      [MTree.node (⟨0, 0, 0, some 0⟩ : MCTSData ℕ ℚ) []] < 1 :=
  (C9_select_child (id : ℚ → ℚ) 100 0 0
    [MTree.node (⟨0, 0, 0, some 0⟩ : MCTSData ℕ ℚ) []] (by simp)).1

/-- C6: statistics extraction writes each root child's visit count (as a
value of `F`) at index `source_move` of the visit vector, returns as best
move the `source_move` of a root child with maximal visit count (the last
maximizer in encounter order — a single deterministic choice for the same
tree), and returns as score the root's own accumulated score, not divided by
its visit count. -/
theorem C6_tree_stats {F σ : Type} [LinearOrderedField F] (G : GameI F σ) (N : ℕ)
    (t : MTree σ F)
    (hsm : ∀ c ∈ t.children, ∃ i, (MTree.data c).source_move = some i ∧ i < N)
    (hnd : (t.children.map (fun c => (MTree.data c).source_move)).Nodup)
    (hne : t.children ≠ []) :
    ∃ stats : GameStats F, get_tree_stats N G t = some stats ∧
      stats.score = t.data.score ∧
      stats.node_visits.length = N ∧
      (∀ c ∈ t.children, ∀ i, (MTree.data c).source_move = some i →
        stats.node_visits.get? i = some (((MTree.data c).visits : ℕ) : F)) ∧
      (∃ best ∈ t.children, (MTree.data best).source_move = some stats.best_move_index ∧
        ∀ c ∈ t.children, (MTree.data c).visits ≤ (MTree.data best).visits) := by
  cases t with
  | node d cs =>
    simp only [MTree.children] at hsm hnd hne
    have hsm' : ∀ c ∈ cs.map MTree.data, ∃ i, c.source_move = some i ∧
        i < (List.replicate N (0 : F)).length := by
      intro c hc
      rcases List.mem_map.mp hc with ⟨c0, hc0, hc1⟩
      rcases hsm c0 hc0 with ⟨i, hi, hilt⟩
      exact ⟨i, by rw [← hc1]; exact hi, by rw [List.length_replicate]; exact hilt⟩
    rcases set_visit_foldl (cs.map MTree.data) (List.replicate N (0 : F)) hsm'
      with ⟨res, hfold, hlen, _, hfinal⟩
    have hnd' : ((cs.map MTree.data).map (fun c => c.source_move)).Nodup := by
      rw [List.map_map]
      exact hnd
    cases hcs : cs with
    | nil => exact absurd hcs hne
    | cons c0 cs' =>
      subst hcs
      rcases max_by_key_visits_spec (MTree.data c0) (cs'.map MTree.data)
        with ⟨b, hb, hbmem, hbmax⟩
      have hbmem' : b ∈ (c0 :: cs').map MTree.data := by
        simpa using hbmem
      rcases List.mem_map.mp hbmem' with ⟨cb, hcb, hcb1⟩
      rcases hsm cb hcb with ⟨bmi, hbmi, hbmilt⟩
      rw [hcb1] at hbmi
      refine ⟨⟨bmi, G.get_game_state_slice d.game, res, d.score⟩, ?_, rfl, ?_, ?_, ?_⟩
      · simp only [get_tree_stats, MTree.children, MTree.data]
        rw [List.map_cons] at hfold
        rw [List.map_cons, hfold]
        have hb' : max_by_key_visits (MTree.data c0 :: cs'.map MTree.data) = some b := hb
        rw [hb']
        show (match b.source_move with
          | none => none
          | some best_move_index =>
            some (⟨best_move_index, G.get_game_state_slice d.game, res, d.score⟩
              : GameStats F))
          = some ⟨bmi, G.get_game_state_slice d.game, res, d.score⟩
        rw [hbmi]
      · rw [hlen, List.length_replicate]
      · intro c hc i hi
        exact hfinal hnd' (MTree.data c) (List.mem_map.mpr ⟨c, hc, rfl⟩) i hi
      · refine ⟨cb, hcb, by rw [hcb1]; exact hbmi, ?_⟩
        intro c hc
        have hcmem : MTree.data c ∈ MTree.data c0 :: cs'.map MTree.data := by
          rcases List.mem_cons.mp hc with h | h
          · subst h
            exact List.mem_cons_self _ _
          · exact List.mem_cons_of_mem _ (List.mem_map.mpr ⟨c, h, rfl⟩)
        have := hbmax (MTree.data c) hcmem
        rw [hcb1]
        exact this

/-- Witness for C6: a two-child root with visit counts 2 and 7 yields some
statistics record (no panic). -/
theorem C6_tree_stats_witness :
    (get_tree_stats 2 CountGame (MTree.node (⟨0, 3, 5, none⟩ : MCTSData ℕ ℚ)
      [MTree.node ⟨1, 2, 0, some 0⟩ [], MTree.node ⟨2, 7, 0, some 1⟩ []])).isSome
      = true := by
  obtain ⟨stats, h1, _⟩ := C6_tree_stats CountGame 2
    (MTree.node (⟨0, 3, 5, none⟩ : MCTSData ℕ ℚ)
      [MTree.node ⟨1, 2, 0, some 0⟩ [], MTree.node ⟨2, 7, 0, some 1⟩ []])
    (by
      intro c hc
      simp only [MTree.children] at hc
      rcases List.mem_cons.mp hc with h | h
      · subst h; exact ⟨0, rfl, by omega⟩
      · rcases List.mem_cons.mp h with h2 | h2
        · subst h2; exact ⟨1, rfl, by omega⟩
        · exact absurd h2 (List.not_mem_nil c))
    (by decide)
    (by simp [MTree.children])
  rw [h1]
  rfl

/-- C7: a policy error during any rollout propagates unchanged: a failing
rollout makes the step return exactly that error, a failing step makes the
whole loop return it immediately (no retry), an error from the remaining
loop passes through a completed step unchanged, a failed run makes `mcts`
return exactly that error with no statistics, and step errors originate only
from the rollout's `simulate`. -/
theorem C7_error_propagation {F σ ε : Type} [LinearOrderedField F] (sqrtF : F → F)
    (fMAX : F) (N : ℕ) (G : GameI F σ) (P : PolicyI σ ε) (fuel : ℕ)
    (oracle : ℕ → List ℕ) :
    (∀ (t : MTree σ F) (rs : List ℕ) (e : ε),
      G.game_ended ((t.follow (select_leaf sqrtF fMAX t rs)).data.game) = false →
      simulate G P .Player fuel ((t.follow (select_leaf sqrtF fMAX t rs)).data.game)
        = some (.error e) →
      mcts_step sqrtF fMAX G P fuel t rs = some (.error e)) ∧
    (∀ (t : MTree σ F) (rs : List ℕ) (e : ε),
      mcts_step sqrtF fMAX G P fuel t rs = some (.error e) →
      simulate G P .Player fuel ((t.follow (select_leaf sqrtF fMAX t rs)).data.game)
        = some (.error e)) ∧
    (∀ (n k : ℕ) (t : MTree σ F) (e : ε),
      mcts_step sqrtF fMAX G P fuel t (oracle k) = some (.error e) →
      run_sims sqrtF fMAX G P fuel oracle (n + 1) k t = some (.error e)) ∧
    (∀ (n k : ℕ) (t t1 : MTree σ F) (e : ε),
      mcts_step sqrtF fMAX G P fuel t (oracle k) = some (.ok t1) →
      run_sims sqrtF fMAX G P fuel oracle n (k + 1) t1 = some (.error e) →
      run_sims sqrtF fMAX G P fuel oracle (n + 1) k t = some (.error e)) ∧
    (∀ (root_game : σ) (e : ε),
      run_sims sqrtF fMAX G P fuel oracle SIMULATIONS 0
          (.node (MCTSData.new root_game) []) = some (.error e) →
      mcts sqrtF fMAX N G P fuel oracle root_game = some (.error e)) := by
  refine ⟨?_, ?_, ?_, ?_, ?_⟩
  · intro t rs e he hsim
    exact mcts_step_error_of_simulate sqrtF fMAX G P fuel t rs e he hsim
  · intro t rs e hstep
    exact (mcts_step_error sqrtF fMAX G P fuel t rs e hstep).2
  · intro n k t e hstep
    exact run_sims_error_of_step sqrtF fMAX G P fuel oracle n k t e hstep
  · intro n k t t1 e hstep hrest
    exact run_sims_error_of_rest sqrtF fMAX G P fuel oracle n k t t1 e hstep hrest
  · intro root_game e hrun
    exact mcts_error_of_run sqrtF fMAX N G P fuel oracle root_game e hrun

/-- Witness for C7: with the always-failing policy on a non-terminal
position, one step already returns the policy's error. -/
theorem C7_error_propagation_witness :
    mcts_step (id : ℚ → ℚ) 100 CountGame FailPolicy 3 (.node (MCTSData.new 1) []) []
      = some (.error ()) := by
  have h := (C7_error_propagation (id : ℚ → ℚ) 100 1 CountGame FailPolicy 3
    (fun _ => [])).1
  exact h (.node (MCTSData.new 1) []) [] ()
    (by rw [select_leaf_nil]; rfl) (by rw [select_leaf_nil]; rfl)

/-- C8: during a search, every node's visit count equals its count at the
start plus the number of backpropagation passes whose leaf path touched it
(so it is non-decreasing and grows by exactly 1 per pass), and selection
always stops at a node without children, so expansion only ever applies to
unexpanded nodes and children exist exactly for expanded nodes. -/
theorem C8_invariants {F σ ε : Type} [LinearOrderedField F] (sqrtF : F → F) (fMAX : F)
    (G : GameI F σ) (P : PolicyI σ ε) (fuel : ℕ) (oracle : ℕ → List ℕ) :
    (∀ (n k : ℕ) (t tf : MTree σ F) (log : List (List ℕ)),
      run_sims sqrtF fMAX G P fuel oracle n k t = some (.ok (tf, log)) →
      ∀ q : List ℕ,
        visitsAt tf q = visitsAt t q + log.countP (fun p => decide (q <+: p))) ∧
    (∀ (t t1 : MTree σ F) (rs : List ℕ),
      mcts_step sqrtF fMAX G P fuel t rs = some (.ok t1) →
      ∀ q : List ℕ, visitsAt t1 q
        = visitsAt t q + (if q <+: select_leaf sqrtF fMAX t rs then 1 else 0)) ∧
    (∀ (t : MTree σ F) (rs : List ℕ),
      (t.follow (select_leaf sqrtF fMAX t rs)).children = []) :=
  ⟨run_sims_visits sqrtF fMAX G P fuel oracle,
    fun t t1 rs h q => mcts_step_visits sqrtF fMAX G P fuel t t1 rs h q,
    fun t rs => (select_leaf_spec sqrtF fMAX t rs).2⟩

/-- Witness for C8: a one-simulation run on a terminal root leaves the root
with its single backpropagation pass counted. -/
theorem C8_invariants_witness :
    visitsAt (MTree.node (⟨0, 0 + 1,
        0 + (1 : ℚ) * terminal_points (CountGame.winning_player 0), none⟩
      : MCTSData ℕ ℚ) []) [] = 1 := by
  have hrun := run_sims_ended_nil (id : ℚ → ℚ) 100 CountGame ZeroPolicy 3 (fun _ => [])
    1 0 (MCTSData.new 0) (by decide)
  have h := (C8_invariants (id : ℚ → ℚ) 100 CountGame ZeroPolicy 3 (fun _ => [])).1
    1 0 _ _ _ hrun []
  simpa using h

/-- C10: with an already-ended root position, every simulation selects the
root, takes the terminal branch and never expands, so the root still has no
children when statistics are extracted; extraction then hits the unwrap of
the maximum over an empty child list, modelled as `none`: `mcts` produces
neither a `GameStats` value nor an error result. -/
theorem C10_ended_root {F σ ε : Type} [LinearOrderedField F] (sqrtF : F → F) (fMAX : F)
    (N : ℕ) (G : GameI F σ) (P : PolicyI σ ε) (fuel : ℕ) (oracle : ℕ → List ℕ)
    (g : σ) (hend : G.game_ended g = true) :
    run_sims sqrtF fMAX G P fuel oracle SIMULATIONS 0 (.node (MCTSData.new g) [])
      = some (.ok (.node ⟨g, SIMULATIONS,
          (SIMULATIONS : F) * terminal_points (G.winning_player g), none⟩ [],
        List.replicate SIMULATIONS [])) ∧
    mcts sqrtF fMAX N G P fuel oracle g = some (.ok none) := by
  have hrun := run_sims_ended_nil sqrtF fMAX G P fuel oracle SIMULATIONS 0
    (MCTSData.new g) hend
  constructor
  · simpa [MCTSData.new] using hrun
  · rw [mcts]
    simp only [hrun]
    rfl

/-- Witness for C10: `CountGame` with zero stones is game-ended, and `mcts`
on it ends in the modelled panic (ok-none), not statistics and not an
error. -/
theorem C10_ended_root_witness :
    mcts (id : ℚ → ℚ) 100 1 CountGame ZeroPolicy 3 (fun _ => []) 0
      = some (.ok none) :=
  (C10_ended_root (id : ℚ → ℚ) 100 1 CountGame ZeroPolicy 3 (fun _ => []) 0
    (by decide)).2

/-- Helper for the C1 analysis: backpropagating the lost rollout's −1 into
the freshly expanded one-stone `CountGame` root. -/
theorem backprop_expand_CountGame_one :
    backprop []
      (expand_at CountGame [] (MTree.node (MCTSData.new 1) ([] : List (MTree ℕ ℚ))))
      (GameResult.points GameResult.Loss)
      = MTree.node ⟨1, 1, -1, none⟩ [MTree.node ⟨0, 0, 0, some 0⟩ []] := by
  rw [show expand_at CountGame [] (MTree.node (MCTSData.new 1) ([] : List (MTree ℕ ℚ)))
      = MTree.node (MCTSData.new 1) [MTree.node ⟨0, 0, 0, some 0⟩ []] from rfl]
  rw [backprop]
  simp [MCTSData.touch, MCTSData.new, GameResult.points]

/-- Helper for the C1 analysis: one step of the engine on a fresh
one-stone `CountGame` root: the rollout is lost for the canonical
`Players.Player` (the stone is taken by the Opponent, who wins), so the
value backpropagated into the root is −1. -/
theorem mcts_step_CountGame_one :
    mcts_step (id : ℚ → ℚ) 100 CountGame ZeroPolicy 2 (.node (MCTSData.new 1) []) []
      = some (.ok (.node ⟨1, 1, -1, none⟩ [MTree.node ⟨0, 0, 0, some 0⟩ []])) := by
  simp only [mcts_step, select_leaf_nil]
  have hcond : CountGame.game_ended
      ((MTree.node (MCTSData.new 1) ([] : List (MTree ℕ ℚ))).follow []).data.game
      = false := rfl
  rw [if_neg (by simp [hcond])]
  have hsim : simulate CountGame ZeroPolicy Players.Player 2
      ((MTree.node (MCTSData.new 1) ([] : List (MTree ℕ ℚ))).follow []).data.game
      = some (.ok .Loss) := rfl
  rw [hsim]
  show some (Except.ok (backprop []
      (expand_at CountGame [] (MTree.node (MCTSData.new 1) ([] : List (MTree ℕ ℚ))))
      (GameResult.points GameResult.Loss)))
    = some (.ok (.node ⟨1, 1, -1, none⟩ [MTree.node ⟨0, 0, 0, some 0⟩ []]))
  rw [backprop_expand_CountGame_one]

/-- C1 (amended): when the selected leaf's position is not game-ended, the
step runs a full playout with `simulate`, which repeatedly asks the policy
for a move until `game_ended()` holds and classifies the final winner
relative to the fixed canonical `Players.Player` — the same perspective used
for terminal leaves, not the leaf position's current player — and the
resulting +1/−1/0 point value is what is backpropagated after expansion. -/
theorem C1_rollout_amended {F σ ε : Type} [LinearOrderedField F] (sqrtF : F → F)
    (fMAX : F) (G : GameI F σ) (P : PolicyI σ ε) (fuel : ℕ) :
    (∀ (t : MTree σ F) (rs : List ℕ),
      G.game_ended ((t.follow (select_leaf sqrtF fMAX t rs)).data.game) = false →
      mcts_step sqrtF fMAX G P fuel t rs
        = (simulate G P .Player fuel
            ((t.follow (select_leaf sqrtF fMAX t rs)).data.game)).map
            (Except.map (fun result =>
              backprop (select_leaf sqrtF fMAX t rs)
                (expand_at G (select_leaf sqrtF fMAX t rs) t)
                (GameResult.points result)))) ∧
    (∀ (sp : Players) (n : ℕ) (g : σ),
      simulate G P sp n g
        = (playout G P n g).map (Except.map
            (fun gend => classify (G.winning_player gend) sp))) ∧
    (∀ (n : ℕ) (g gend : σ), playout G P n g = some (.ok gend) →
      G.game_ended gend = true) ∧
    (∀ w : Players, classify (some w) .Player
        = if w = .Player then .Win else .Loss) ∧
    classify none .Player = .Tie ∧
    (GameResult.points .Win : F) = 1 ∧ (GameResult.points .Loss : F) = -1 ∧
    (GameResult.points .Tie : F) = 0 := by
  refine ⟨?_, fun sp => simulate_eq_playout_classify G P sp, playout_ended G P,
    fun w => rfl, rfl, rfl, rfl, rfl⟩
  intro t rs hne
  rw [mcts_step, if_neg (by simp [hne])]
  cases hsim : simulate G P .Player fuel
      ((t.follow (select_leaf sqrtF fMAX t rs)).data.game) with
  | none => rfl
  | some res =>
    cases res with
    | error e => rfl
    | ok result => rfl

/-- Witness for C1 (amended): one step from a one-stone `CountGame` root
backpropagates the value −1 computed relative to the canonical
`Players.Player`. -/
theorem C1_rollout_amended_witness :
    mcts_step (id : ℚ → ℚ) 100 CountGame ZeroPolicy 2 (.node (MCTSData.new 1) []) []
      = some (.ok (.node ⟨1, 1, -1, none⟩ [MTree.node ⟨0, 0, 0, some 0⟩ []])) := by
  have h := (C1_rollout_amended (id : ℚ → ℚ) 100 CountGame ZeroPolicy 2).1
    (.node (MCTSData.new 1) []) [] (by rw [select_leaf_nil]; rfl)
  rw [h, select_leaf_nil]
  have hsim : simulate CountGame ZeroPolicy Players.Player 2
      ((MTree.node (MCTSData.new 1) ([] : List (MTree ℕ ℚ))).follow []).data.game
      = some (.ok .Loss) := rfl
  rw [hsim]
  show some (Except.ok (backprop []
      (expand_at CountGame [] (MTree.node (MCTSData.new 1) ([] : List (MTree ℕ ℚ))))
      (GameResult.points GameResult.Loss)))
    = some (.ok (.node ⟨1, 1, -1, none⟩ [MTree.node ⟨0, 0, 0, some 0⟩ []]))
  rw [backprop_expand_CountGame_one]

/-- C1 counterexample: at a leaf position whose current player is the
Opponent, a playout ending with the Opponent winning is classified by the
code relative to the fixed `Players.Player` as a Loss, and −1 is
backpropagated; relative to the leaf's current player (the claim's reading)
it would be a Win and +1 would be backpropagated.  The step on such a leaf
demonstrably stores −1 in the root, not +1. -/
theorem C1_rollout_counterexample :
    CountGame.current_player 1 = .Opponent ∧
    CountGame.game_ended 1 = false ∧
    simulate CountGame ZeroPolicy .Player 2 1 = some (.ok .Loss) ∧
    simulate CountGame ZeroPolicy (CountGame.current_player 1) 2 1
      = some (.ok .Win) ∧
    (GameResult.points .Loss : ℚ) = -1 ∧ (GameResult.points .Win : ℚ) = 1 ∧
    mcts_step (id : ℚ → ℚ) 100 CountGame ZeroPolicy 2
        (.node (MCTSData.new 1) []) []
      = some (.ok (.node ⟨1, 1, -1, none⟩ [MTree.node ⟨0, 0, 0, some 0⟩ []])) ∧
    mcts_step (id : ℚ → ℚ) 100 CountGame ZeroPolicy 2
        (.node (MCTSData.new 1) []) []
      ≠ some (.ok (.node ⟨1, 1, 1, none⟩ [MTree.node ⟨0, 0, 0, some 0⟩ []])) := by
  refine ⟨rfl, rfl, rfl, rfl, rfl, rfl, mcts_step_CountGame_one, ?_⟩
  rw [mcts_step_CountGame_one]
  intro hcontra
  have h1 := Except.ok.inj (Option.some.inj hcontra)
  have h2 := (MTree.node.injEq _ _ _ _).mp h1
  have h3 := (MCTSData.mk.injEq _ _ _ _ _ _ _ _).mp h2.1
  have h4 : (-1 : ℚ) = 1 := h3.2.2.1
  norm_num at h4

end Claims

end AlphaScuffed
